import Mathlib

/-!
Shallow embedding of the resx-editor synchronization core
(`src/resxEditorProvider.ts`): family discovery by filename pattern,
resx parsing/serialization via the xml2js object model, file-level
mutations (add/delete key) and webview-level table mutations
(set value / rename key).
-/

/-- ASCII lower-casing of one character, as JavaScript `toLowerCase` /
the regex `i` flag act on ASCII letters. -/
def lowerChar (c : Char) : Char :=
  if c = 'A' then 'a' else if c = 'B' then 'b' else if c = 'C' then 'c'
  else if c = 'D' then 'd' else if c = 'E' then 'e' else if c = 'F' then 'f'
  else if c = 'G' then 'g' else if c = 'H' then 'h' else if c = 'I' then 'i'
  else if c = 'J' then 'j' else if c = 'K' then 'k' else if c = 'L' then 'l'
  else if c = 'M' then 'm' else if c = 'N' then 'n' else if c = 'O' then 'o'
  else if c = 'P' then 'p' else if c = 'Q' then 'q' else if c = 'R' then 'r'
  else if c = 'S' then 's' else if c = 'T' then 't' else if c = 'U' then 'u'
  else if c = 'V' then 'v' else if c = 'W' then 'w' else if c = 'X' then 'x'
  else if c = 'Y' then 'y' else if c = 'Z' then 'z' else c

/-- Strip `p` from the front of `l`, comparing characters
case-insensitively; returns the remainder on success. -/
def stripCaseless : List Char → List Char → Option (List Char)
  | [], l => some l
  | _ :: _, [] => none
  | p :: ps, c :: cs => if lowerChar c = lowerChar p then stripCaseless ps cs else none

/-- `[A-Za-z]` of the culture-tag regex. -/
def isAsciiAlpha (c : Char) : Bool :=
  ('A' ≤ c && c ≤ 'Z') || ('a' ≤ c && c ≤ 'z')

/-- `[A-Za-z0-9]` of the culture-tag regex. -/
def isAsciiAlnum (c : Char) : Bool :=
  isAsciiAlpha c || ('0' ≤ c && c ≤ '9')

/-- A segment matching `[A-Za-z]{2,8}`. -/
def alphaSeg (s : List Char) : Bool :=
  decide (2 ≤ s.length) && decide (s.length ≤ 8) && s.all isAsciiAlpha

/-- A segment matching `[A-Za-z0-9]{2,8}`. -/
def alnumSeg (s : List Char) : Bool :=
  decide (2 ≤ s.length) && decide (s.length ≤ 8) && s.all isAsciiAlnum

/-- Split a character list at every dash. -/
def splitOnDash : List Char → List (List Char)
  | [] => [[]]
  | c :: rest =>
    if c = '-' then [] :: splitOnDash rest
    else
      match splitOnDash rest with
      | [] => [[c]]
      | s :: ss => (c :: s) :: ss

/-- The culture tag of `tryGetCultureFromResxFileName`:
`[A-Za-z]{2,8}(?:-[A-Za-z0-9]{2,8})+` — an alphabetic segment followed by
one or more dash-separated alphanumeric segments.  Since the segment
character classes exclude `-`, exact regex match is equivalent to this
dash-split condition. -/
def validTagL (t : List Char) : Bool :=
  match splitOnDash t with
  | s0 :: s1 :: rest => alphaSeg s0 && (s1 :: rest).all alnumSeg
  | _ => false

/-- Core of `tryGetCultureFromResxFileName`, on character lists: the
anchored match of `^<base>\.(<tag>)\.resx$` with the `i` flag.  Because
the tag cannot contain a dot, the regex matches exactly when the file
name splits as caseless base, a dot, a dot-free valid tag, and a caseless
`.resx` suffix; the capture is the tag with its original casing. -/
def tryGetCultureChars (base file : List Char) : Option (List Char) :=
  match stripCaseless (base ++ ['.']) file with
  | none => none
  | some rest =>
    let tag := rest.takeWhile (fun c => c ≠ '.')
    let rem := rest.dropWhile (fun c => c ≠ '.')
    if validTagL tag = true ∧ rem.map lowerChar = ['.', 'r', 'e', 's', 'x']
    then some tag else none

/-- `tryGetCultureFromResxFileName(baseFileName, fileName)` from
`src/resxEditorProvider.ts` lines 108–114. -/
def tryGetCultureFromResxFileName (baseFileName fileName : String) : Option String :=
  (tryGetCultureChars baseFileName.data fileName.data).map (fun l => String.mk l)

example : tryGetCultureFromResxFileName "Messages" "Messages.en-US.resx" = some "en-US" := by decide
example : tryGetCultureFromResxFileName "Messages" "Messages.zh.resx" = none := by decide
example : tryGetCultureFromResxFileName "Messages" "Messages.zh-Hans-CN.resx" = some "zh-Hans-CN" := by decide
example : tryGetCultureFromResxFileName "Messages" "MESSAGES.en-us.RESX" = some "en-us" := by decide
example : tryGetCultureFromResxFileName "Messages" "Notes.en-US.resx" = none := by decide
example : tryGetCultureFromResxFileName "Messages" "Messages.en-US.resx.bak" = none := by decide
example : tryGetCultureFromResxFileName "Messages" "Messages.default.resx" = none := by decide

/-! ## Resx documents: entries, data nodes, parse, serialize -/

/-- `ResxEntry` from the source (`{ name, value, comment? }`); `comment`
is `none` when the JavaScript object has no `comment` property. -/
structure ResxEntry where
  name : String
  value : String
  comment : Option String
  deriving DecidableEq, Repr

/-- One `<data>` element of a resx document as xml2js presents it:
the `name` attribute, an optional `<value>` child text, and an optional
`<comment>` child text (`none` when the child element is absent). -/
structure DataNode where
  name : String
  value : Option String
  comment : Option String
  deriving DecidableEq, Repr

/-- A parsed member table: the `Map<string, ResxEntry>` of the source,
as an insertion-ordered list of entries keyed by their `name`. -/
abbrev Table := List ResxEntry

/-- Parsing one `<data>` element (`parseResxFile` lines 264–270):
`value` defaults to the empty string, and `comment` is set to the
comment text or to the empty string — the JS object always receives a
`comment` property. -/
def parseNode (d : DataNode) : ResxEntry :=
  { name := d.name, value := d.value.getD "", comment := some (d.comment.getD "") }

/-- `Map.set` keyed by entry name: overwrite in place, else append. -/
def mapSet (m : Table) (e : ResxEntry) : Table :=
  if m.any (fun x => x.name == e.name)
  then m.map (fun x => if x.name = e.name then e else x)
  else m ++ [e]

/-- The `for (const data of result.root.data)` loop of `parseResxFile`. -/
def parseLoop (acc : Table) : List DataNode → Table
  | [] => acc
  | d :: ds => parseLoop (mapSet acc (parseNode d)) ds

/-- `parseResxFile` on the sequence of `<data>` elements of a document
(the rest of the document is ignored by the parser; a document with no
`data` elements is the empty list and yields the empty table). -/
def parseResxData (ds : List DataNode) : Table :=
  parseLoop [] ds

/-- JavaScript truthiness of `entry.comment`: the property is present
and its string is non-empty. -/
def commentTruthy : Option String → Bool
  | none => false
  | some c => c != ""

/-- The `<data>` node built for one entry by `writeResxFile`
(lines 299–308): `name` attribute, `value` child always, `comment`
child exactly when `entry.comment` is truthy. -/
def writeNode (e : ResxEntry) : DataNode :=
  { name := e.name, value := some e.value,
    comment := if commentTruthy e.comment then e.comment else none }

/-- The sequence of `<data>` elements `writeResxFile` emits for a table,
in the table's iteration order. -/
def writeResxData (t : Table) : List DataNode :=
  t.map writeNode

/-! ## The full xml2js object tree built by `writeResxFile` -/

/-- The JavaScript value trees handed to the xml2js `Builder`
(string leaves, ordered-field objects, arrays).  The builder is a
deterministic function of this tree, so equal trees give byte-identical
files. -/
inductive JVal where
  | str (s : String)
  | obj (fields : List (String × JVal))
  | arr (elems : List JVal)

/-- First-match association lookup (JavaScript object property read). -/
def alGet {α : Type} : List (String × α) → String → Option α
  | [], _ => none
  | p :: ps, k => if p.1 = k then some p.2 else alGet ps k

/-- JavaScript object property write: overwrite in place, else append. -/
def alSet {α : Type} : List (String × α) → String → α → List (String × α)
  | [], k, v => [(k, v)]
  | p :: ps, k, v => if p.1 = k then (k, v) :: ps else p :: alSet ps k v

/-- JavaScript `delete obj[k]`. -/
def alDelete {α : Type} : List (String × α) → String → List (String × α)
  | [], _ => []
  | p :: ps, k => if p.1 = k then alDelete ps k else p :: alDelete ps k

/-- Property read on a `JVal` object. -/
def jGet (j : JVal) (k : String) : Option JVal :=
  match j with
  | JVal.obj fs => alGet fs k
  | _ => none

/-- The xml2js rendering of one `<data>` node: `$` attributes with the
entry name and `xml:space="preserve"`, the `value` array, and a
`comment` array exactly when the node carries one. -/
def jvalOfDataNode (d : DataNode) : JVal :=
  JVal.obj
    ([("$", JVal.obj [("name", JVal.str d.name), ("xml:space", JVal.str "preserve")])]
      ++ (match d.value with
          | some v => [("value", JVal.arr [JVal.str v])]
          | none => [])
      ++ (match d.comment with
          | some c => [("comment", JVal.arr [JVal.str c])]
          | none => []))

/-- The root `$` attributes of `writeResxFile` (lines 312–315). -/
def rootAttrsConst : JVal :=
  JVal.obj
    [("xmlns:xsd", JVal.str "http://www.w3.org/2001/XMLSchema"),
     ("xmlns:xsi", JVal.str "http://www.w3.org/2001/XMLSchema-instance")]

/-- The fixed `xsd:schema` block of `writeResxFile` (lines 316–365),
transcribed field by field. -/
def schemaConst : JVal :=
  JVal.arr [JVal.obj
    [("$", JVal.obj
       [("id", JVal.str "root"), ("xmlns", JVal.str ""),
        ("xmlns:xsd", JVal.str "http://www.w3.org/2001/XMLSchema"),
        ("xmlns:msdata", JVal.str "urn:schemas-microsoft-com:xml-msdata")]),
     ("xsd:import", JVal.arr [JVal.obj
       [("$", JVal.obj [("namespace", JVal.str "http://www.w3.org/XML/1998/namespace")])]]),
     ("xsd:element", JVal.arr [JVal.obj
       [("$", JVal.obj [("name", JVal.str "root"), ("msdata:IsDataSet", JVal.str "true")]),
        ("xsd:complexType", JVal.arr [JVal.obj
          [("xsd:choice", JVal.arr [JVal.obj
            [("$", JVal.obj [("maxOccurs", JVal.str "unbounded")]),
             ("xsd:element", JVal.arr
               [JVal.obj
                 [("$", JVal.obj [("name", JVal.str "metadata")]),
                  ("xsd:complexType", JVal.arr [JVal.obj
                    [("xsd:sequence", JVal.arr [JVal.obj
                      [("xsd:element", JVal.arr [JVal.obj
                        [("$", JVal.obj
                          [("name", JVal.str "value"), ("type", JVal.str "xsd:string"),
                           ("minOccurs", JVal.str "0")])]])]]),
                     ("xsd:attribute", JVal.arr
                       [JVal.obj [("$", JVal.obj
                          [("name", JVal.str "name"), ("use", JVal.str "required"),
                           ("type", JVal.str "xsd:string")])],
                        JVal.obj [("$", JVal.obj
                          [("name", JVal.str "type"), ("type", JVal.str "xsd:string")])],
                        JVal.obj [("$", JVal.obj
                          [("name", JVal.str "mimetype"), ("type", JVal.str "xsd:string")])],
                        JVal.obj [("$", JVal.obj [("ref", JVal.str "xml:space")])]])]])],
                JVal.obj
                 [("$", JVal.obj [("name", JVal.str "assembly")]),
                  ("xsd:complexType", JVal.arr [JVal.obj
                    [("xsd:attribute", JVal.arr
                       [JVal.obj [("$", JVal.obj
                          [("name", JVal.str "alias"), ("type", JVal.str "xsd:string")])],
                        JVal.obj [("$", JVal.obj
                          [("name", JVal.str "name"), ("type", JVal.str "xsd:string")])]])]])],
                JVal.obj
                 [("$", JVal.obj [("name", JVal.str "data")]),
                  ("xsd:complexType", JVal.arr [JVal.obj
                    [("xsd:sequence", JVal.arr [JVal.obj
                      [("xsd:element", JVal.arr
                        [JVal.obj [("$", JVal.obj
                           [("name", JVal.str "value"), ("type", JVal.str "xsd:string"),
                            ("minOccurs", JVal.str "0"), ("msdata:Ordinal", JVal.str "1")])],
                         JVal.obj [("$", JVal.obj
                           [("name", JVal.str "comment"), ("type", JVal.str "xsd:string"),
                            ("minOccurs", JVal.str "0"), ("msdata:Ordinal", JVal.str "2")])]])]]),
                     ("xsd:attribute", JVal.arr
                       [JVal.obj [("$", JVal.obj
                          [("name", JVal.str "name"), ("type", JVal.str "xsd:string"),
                           ("use", JVal.str "required"), ("msdata:Ordinal", JVal.str "1")])],
                        JVal.obj [("$", JVal.obj
                          [("name", JVal.str "type"), ("type", JVal.str "xsd:string"),
                           ("msdata:Ordinal", JVal.str "3")])],
                        JVal.obj [("$", JVal.obj
                          [("name", JVal.str "mimetype"), ("type", JVal.str "xsd:string"),
                           ("msdata:Ordinal", JVal.str "4")])],
                        JVal.obj [("$", JVal.obj [("ref", JVal.str "xml:space")])]])]])],
                JVal.obj
                 [("$", JVal.obj [("name", JVal.str "resheader")]),
                  ("xsd:complexType", JVal.arr [JVal.obj
                    [("xsd:sequence", JVal.arr [JVal.obj
                      [("xsd:element", JVal.arr [JVal.obj
                        [("$", JVal.obj
                          [("name", JVal.str "value"), ("type", JVal.str "xsd:string"),
                           ("minOccurs", JVal.str "0"), ("msdata:Ordinal", JVal.str "1")])]])]]),
                     ("xsd:attribute", JVal.arr [JVal.obj
                       [("$", JVal.obj
                          [("name", JVal.str "name"), ("type", JVal.str "xsd:string"),
                           ("use", JVal.str "required")])]])]])]])]])]])]])]]

/-- The fixed `resheader` block of `writeResxFile` (lines 366–371). -/
def resheaderConst : JVal :=
  JVal.arr
    [JVal.obj [("$", JVal.obj [("name", JVal.str "resmimetype")]),
               ("value", JVal.arr [JVal.str "text/microsoft-resx"])],
     JVal.obj [("$", JVal.obj [("name", JVal.str "version")]),
               ("value", JVal.arr [JVal.str "2.0"])],
     JVal.obj [("$", JVal.obj [("name", JVal.str "reader")]),
               ("value", JVal.arr [JVal.str "System.Resources.ResXResourceReader, System.Windows.Forms, Version=4.0.0.0, Culture=neutral, PublicKeyToken=b77a5c561934e089"])],
     JVal.obj [("$", JVal.obj [("name", JVal.str "writer")]),
               ("value", JVal.arr [JVal.str "System.Resources.ResXResourceWriter, System.Windows.Forms, Version=4.0.0.0, Culture=neutral, PublicKeyToken=b77a5c561934e089"])]]

/-- `writeResxFile` (lines 298–379): the complete xml2js object handed
to the `Builder` for one table. -/
def writeResxFile (t : Table) : JVal :=
  JVal.obj
    [("root", JVal.obj
      [("$", rootAttrsConst),
       ("xsd:schema", schemaConst),
       ("resheader", resheaderConst),
       ("data", JVal.arr ((writeResxData t).map jvalOfDataNode))])]

/-! ## File-level mutations and the family -/

/-- `addKeyToFile` (lines 400–431) on a member document's `<data>`
sequence.  Returns the resulting sequence and whether the file was
rewritten: the rebuild-and-write happens only inside the
`if (!exists)` branch, so a document already containing the key is
left untouched and unwritten. -/
def addKeyToFile (key : String) (doc : List DataNode) : List DataNode × Bool :=
  if doc.any (fun d => d.name == key)
  then (doc, false)
  else (doc ++ [{ name := key, value := some "", comment := none }], true)

/-- `deleteRow`'s per-file body (lines 447–468).  Returns the resulting
`<data>` sequence and whether the file was rewritten: the filter,
rebuild and write run only under `if (result.root && result.root.data)`,
and a document with zero `<data>` elements has no `root.data` after the
xml2js text round trip, so it is left unwritten. -/
def deleteRowFile (key : String) (doc : List DataNode) : List DataNode × Bool :=
  match doc with
  | [] => ([], false)
  | _ => (doc.filter (fun d => d.name != key), true)

/-- A discovered resource family: the base file's `<data>` sequence and
the variant files (culture tag, `<data>` sequence) found by
`tryGetCultureFromResxFileName`. -/
structure Family where
  base : List DataNode
  variants : List (String × List DataNode)

/-- The member documents of a family: the base file, then each variant. -/
def famMembers (f : Family) : List (List DataNode) :=
  f.base :: f.variants.map (fun p => p.2)

/-- `addNewRow` (lines 381–398): `addKeyToFile` on the base file and on
every matched variant file. -/
def addNewRow (key : String) (f : Family) : Family :=
  { base := (addKeyToFile key f.base).1,
    variants := f.variants.map (fun p => (p.1, (addKeyToFile key p.2).1)) }

/-- `deleteRow` (lines 433–469): the per-file delete on the base file
and on every matched variant file. -/
def deleteRow (key : String) (f : Family) : Family :=
  { base := (deleteRowFile key f.base).1,
    variants := f.variants.map (fun p => (p.1, (deleteRowFile key p.2).1)) }

/-- `loadResxFiles` (lines 228–251): start from
`resxFiles['default'] = parse(base)`, then for each directory entry
whose name yields a culture, store that file's parsed table under the
culture tag (JavaScript object write). -/
def loadResxFiles (baseContent : List DataNode) (baseFileName : String)
    (dirFiles : List (String × List DataNode)) : List (String × Table) :=
  dirFiles.foldl
    (fun acc p =>
      match tryGetCultureFromResxFileName baseFileName p.1 with
      | some lang => alSet acc lang (parseResxData p.2)
      | none => acc)
    [("default", parseResxData baseContent)]

/-! ## Webview-side table mutations (`updateValue`, `updateKey`) -/

/-- The webview's `data` object: language → (key → entry). -/
abbrev DocState := List (String × List (String × ResxEntry))

/-- `window.updateValue` (lines 864–872): ensure the language's table
exists, ensure an entry `{ name: key, value: '' }` exists under `key`,
then assign the new value to that entry. -/
def updateValue (d : DocState) (language key x : String) : DocState :=
  let t := (alGet d language).getD []
  let e0 := (alGet t key).getD { name := key, value := "", comment := none }
  alSet d language (alSet t key { e0 with value := x })

/-- The per-language body of `window.updateKey` (lines 879–885): if the
table has `oldKey`, write a copy of its entry under `newKey` with the
`name` field updated, then delete `oldKey`. -/
def renameInTable (t : List (String × ResxEntry)) (oldKey newKey : String) :
    List (String × ResxEntry) :=
  match alGet t oldKey with
  | none => t
  | some e => alDelete (alSet t newKey { e with name := newKey }) oldKey

/-- `window.updateKey` (lines 874–888): guarded by
`oldKey !== newKey && newKey`, rename in every language's table. -/
def updateKey (d : DocState) (oldKey newKey : String) : DocState :=
  if oldKey ≠ newKey ∧ newKey ≠ ""
  then d.map (fun p => (p.1, renameInTable p.2 oldKey newKey))
  else d

/-! ## Helper lemmas: filters and names -/

theorem map_name_filter (p : String → Bool) (l : List DataNode) :
    (l.filter (fun d => p d.name)).map DataNode.name
      = (l.map DataNode.name).filter p := by
  induction l with
  | nil => rfl
  | cons d ds ih =>
    by_cases h : p d.name <;> simp [List.filter, h, ih]

theorem deleteRowFile_ne_nil {doc : List DataNode} (h : doc ≠ []) (k : String) :
    deleteRowFile k doc = (doc.filter (fun d => d.name != k), true) := by
  cases doc with
  | nil => exact absurd rfl h
  | cons d ds => rfl

/-- C6 (amended): `addKey(k)` then `deleteKey(k)` on one member document
leaves the sequence of entry names equal to the original one with `k`
filtered out; in particular the key set is unchanged exactly when `k`
was absent, and shrinks by `k` when it was present. -/
theorem addDelete_keyset (doc : List DataNode) (k : String) :
    ((deleteRowFile k (addKeyToFile k doc).1).1).map DataNode.name
      = (doc.map DataNode.name).filter (fun n => n != k) := by
  by_cases h : doc.any (fun d => d.name == k)
  · have hne : doc ≠ [] := by cases doc <;> simp_all
    simp only [addKeyToFile, if_pos h, deleteRowFile_ne_nil hne]
    exact map_name_filter (fun n => n != k) doc
  · simp only [addKeyToFile, if_neg h,
      deleteRowFile_ne_nil
        (show doc ++ [({ name := k, value := some "", comment := none } : DataNode)] ≠ [] by simp)]
    rw [map_name_filter (fun n => n != k)]
    simp [List.filter_append]

/-- C6 (counterexample): on a member that already contains the key,
`addKey` then `deleteKey` removes it — the key set is not unchanged. -/
theorem addDelete_removes_existing_key :
    ("k" ∈ ([{ name := "k", value := some "v", comment := none }] : List DataNode).map DataNode.name)
    ∧ "k" ∉ ((deleteRowFile "k"
        (addKeyToFile "k"
          [{ name := "k", value := some "v", comment := none }]).1).1).map DataNode.name := by
  decide

/-- C3 (counterexample): a member document that already contains the key
is not rewritten by `addKeyToFile` (the write sits inside `if (!exists)`). -/
theorem addKeyToFile_skips_existing_write :
    addKeyToFile "Bye" [{ name := "Bye", value := some "x", comment := none }]
      = ([{ name := "Bye", value := some "x", comment := none }], false) := by
  decide

/-- C3 (amended): `addNewRow` applies `addKeyToFile` to the base file and
to every variant member; on each member, if the key is absent an entry
with empty value and no comment is appended and the file is rewritten,
and if the key is present the document is left unchanged and unwritten. -/
theorem addNewRow_spec (f : Family) (k : String) :
    famMembers (addNewRow k f) = (famMembers f).map (fun doc => (addKeyToFile k doc).1)
    ∧ ∀ doc : List DataNode,
        (doc.any (fun d => d.name == k) = true → addKeyToFile k doc = (doc, false))
        ∧ (doc.any (fun d => d.name == k) = false →
            addKeyToFile k doc
              = (doc ++ [{ name := k, value := some "", comment := none }], true)) := by
  refine ⟨?_, ?_⟩
  · simp [famMembers, addNewRow, List.map_map, Function.comp]
  · intro doc
    constructor <;> intro h <;> simp [addKeyToFile, h]

theorem addNewRow_spec_witness :
    addKeyToFile "Bye" [{ name := "Hello", value := some "Hi", comment := none }]
      = ([{ name := "Hello", value := some "Hi", comment := none },
          { name := "Bye", value := some "", comment := none }], true) :=
  ((addNewRow_spec ⟨[], []⟩ "Bye").2
    [{ name := "Hello", value := some "Hi", comment := none }]).2 (by decide)

/-- C4 (counterexample): a member document with no data entries (where
the key is in particular absent) is not rewritten by the delete — the
write sits inside `if (result.root && result.root.data)`. -/
theorem deleteRowFile_empty_no_write :
    deleteRowFile "Hello" ([] : List DataNode) = ([], false) := rfl

/-- C4 (amended): `deleteRow` applies the per-file delete to the base
file and to every variant member; a member with at least one data entry
is rewritten with all entries named `k` removed (a no-op rewrite when
`k` is absent), while a member with no data entries is left unwritten. -/
theorem deleteRow_spec (f : Family) (k : String) :
    famMembers (deleteRow k f) = (famMembers f).map (fun doc => (deleteRowFile k doc).1)
    ∧ ∀ doc : List DataNode,
        (doc = [] → deleteRowFile k doc = ([], false))
        ∧ (doc ≠ [] → deleteRowFile k doc = (doc.filter (fun d => d.name != k), true)) := by
  refine ⟨?_, ?_⟩
  · simp [famMembers, deleteRow, List.map_map, Function.comp]
  · intro doc
    constructor
    · intro h; subst h; rfl
    · intro h
      cases doc with
      | nil => exact absurd rfl h
      | cons d ds => rfl

theorem deleteRow_spec_witness :
    deleteRowFile "Hello" [{ name := "Hello", value := some "Hi", comment := none }]
      = ([], true) :=
  ((deleteRow_spec ⟨[], []⟩ "Hello").2
    [{ name := "Hello", value := some "Hi", comment := none }]).2 (by decide)

/-! ## Parsing lemmas (C8, C2) -/

theorem mem_mapSet {m : Table} {x e : ResxEntry} (h : e ∈ mapSet m x) : e ∈ m ∨ e = x := by
  unfold mapSet at h
  split at h
  · rcases List.mem_map.mp h with ⟨y, hy, hyx⟩
    by_cases hn : y.name = x.name
    · right; simp [hn] at hyx; exact hyx.symm
    · left; simp [hn] at hyx; exact hyx ▸ hy
  · rcases List.mem_append.mp h with h1 | h1
    · exact Or.inl h1
    · right; simpa using h1

theorem mem_parseLoop {e : ResxEntry} :
    ∀ (ds : List DataNode) (acc : Table), e ∈ parseLoop acc ds →
      e ∈ acc ∨ ∃ d ∈ ds, e = parseNode d := by
  intro ds
  induction ds with
  | nil => intro acc h; exact Or.inl h
  | cons d rest ih =>
    intro acc h
    rcases ih (mapSet acc (parseNode d)) h with h1 | h1
    · rcases mem_mapSet h1 with h2 | h2
      · exact Or.inl h2
      · exact Or.inr ⟨d, List.mem_cons_self d rest, h2⟩
    · rcases h1 with ⟨d2, hd2, he⟩
      exact Or.inr ⟨d2, List.mem_cons_of_mem d hd2, he⟩

/-- C8 (amended): every entry produced by the parser comes from some
`<data>` element via `parseNode`, and `parseNode` gives a missing
`<value>` child the empty string and a missing `<comment>` child a
comment *equal to the empty string* — the `comment` property is always
present on the parsed entry. -/
theorem parseResxData_defaults (ds : List DataNode) :
    (∀ e ∈ parseResxData ds, ∃ d ∈ ds, e = parseNode d)
    ∧ ∀ d : DataNode, parseNode d
        = { name := d.name, value := d.value.getD "", comment := some (d.comment.getD "") } := by
  refine ⟨?_, fun _ => rfl⟩
  intro e he
  rcases mem_parseLoop ds [] he with h | h
  · simp at h
  · exact h

theorem parseResxData_defaults_witness :
    ∃ d ∈ ([{ name := "n", value := some "v", comment := none }] : List DataNode),
      ({ name := "n", value := "v", comment := some "" } : ResxEntry) = parseNode d :=
  (parseResxData_defaults [{ name := "n", value := some "v", comment := none }]).1
    { name := "n", value := "v", comment := some "" } (by decide)

/-- C8 (counterexample): parsing a `<data>` element with no comment
child yields an entry whose comment is the *present* empty string, not
an absent field. -/
theorem parseNode_comment_not_unset :
    (parseResxData [{ name := "n", value := some "v", comment := none }]).map ResxEntry.comment
      ≠ [none] := by
  decide

theorem mapSet_append {m : Table} {e : ResxEntry}
    (h : m.any (fun x => x.name == e.name) = false) : mapSet m e = m ++ [e] := by
  unfold mapSet
  rw [if_neg]
  simp [h]

theorem parseLoop_eq :
    ∀ (ds : List DataNode) (acc : Table),
      (ds.map DataNode.name).Nodup →
      (∀ d ∈ ds, acc.any (fun x => x.name == d.name) = false) →
      parseLoop acc ds = acc ++ ds.map parseNode := by
  intro ds
  induction ds with
  | nil => intro acc _ _; simp [parseLoop]
  | cons d rest ih =>
    intro acc hnd hdisj
    have hstep : mapSet acc (parseNode d) = acc ++ [parseNode d] :=
      mapSet_append (hdisj d (List.mem_cons_self d rest))
    have hnd2 : (rest.map DataNode.name).Nodup := (List.nodup_cons.mp hnd).2
    have hnotmem : d.name ∉ rest.map DataNode.name := (List.nodup_cons.mp hnd).1
    have hdisj2 : ∀ d2 ∈ rest, (acc ++ [parseNode d]).any (fun x => x.name == d2.name) = false := by
      intro d2 hd2
      have h1 := hdisj d2 (List.mem_cons_of_mem d hd2)
      have h2 : d.name ≠ d2.name := by
        intro hEq
        exact hnotmem (hEq ▸ List.mem_map_of_mem DataNode.name hd2)
      simp [List.any_append, h1, parseNode, h2]
    calc parseLoop acc (d :: rest)
        = parseLoop (acc ++ [parseNode d]) rest := by rw [parseLoop, hstep]
      _ = (acc ++ [parseNode d]) ++ rest.map parseNode := ih _ hnd2 hdisj2
      _ = acc ++ (d :: rest).map parseNode := by simp

theorem writeNode_parseNode_writeNode (e : ResxEntry) :
    writeNode (parseNode (writeNode e)) = writeNode e := by
  rcases e with ⟨n, v, c⟩
  cases c with
  | none => rfl
  | some s =>
    by_cases hs : s = ""
    · subst hs; rfl
    · simp [writeNode, parseNode, commentTruthy, hs]

/-- C2 (confirmed): for any table with pairwise-distinct entry names
(the Map invariant), parsing the serializer's output and serializing the
parsed table again rebuilds the *identical* xml2js object tree, hence a
byte-identical file under the deterministic builder. -/
theorem writeResxFile_roundtrip (t : Table) (h : (t.map ResxEntry.name).Nodup) :
    writeResxFile (parseResxData (writeResxData t)) = writeResxFile t := by
  have hnames : (writeResxData t).map DataNode.name = t.map ResxEntry.name := by
    simp [writeResxData, List.map_map, Function.comp, writeNode]
  have hparse : parseResxData (writeResxData t) = (writeResxData t).map parseNode :=
    parseLoop_eq (writeResxData t) [] (hnames ▸ h) (fun _ _ => rfl)
  have hdata : writeResxData (parseResxData (writeResxData t)) = writeResxData t := by
    rw [hparse]
    simp [writeResxData, List.map_map, Function.comp, writeNode_parseNode_writeNode]
  unfold writeResxFile
  rw [hdata]

theorem writeResxFile_roundtrip_witness :
    writeResxFile (parseResxData (writeResxData
      [{ name := "Hello", value := "Hi", comment := none },
       { name := "Bye", value := "", comment := some "note" }]))
    = writeResxFile
      [{ name := "Hello", value := "Hi", comment := none },
       { name := "Bye", value := "", comment := some "note" }] :=
  writeResxFile_roundtrip
    [{ name := "Hello", value := "Hi", comment := none },
     { name := "Bye", value := "", comment := some "note" }] (by decide)

/-! ## Serializer shape (C9) -/

/-- C9 (confirmed): the root attributes, `xsd:schema` block and
`resheader` block of the serializer output are fixed constants for every
table; the `data` array holds one node per entry in the table's
iteration order; each node carries the entry's `name` and
`xml:space="preserve"`, a `value` array, and a `comment` array exactly
when the entry's comment is present and non-empty. -/
theorem writeResxFile_fixed_parts (t : Table) :
    (∃ r, jGet (writeResxFile t) "root" = some r
      ∧ jGet r "$" = some rootAttrsConst
      ∧ jGet r "xsd:schema" = some schemaConst
      ∧ jGet r "resheader" = some resheaderConst
      ∧ jGet r "data" = some (JVal.arr ((writeResxData t).map jvalOfDataNode)))
    ∧ writeResxData t = t.map writeNode
    ∧ ∀ e : ResxEntry,
        jGet (jvalOfDataNode (writeNode e)) "$"
          = some (JVal.obj [("name", JVal.str e.name), ("xml:space", JVal.str "preserve")])
        ∧ jGet (jvalOfDataNode (writeNode e)) "value" = some (JVal.arr [JVal.str e.value])
        ∧ jGet (jvalOfDataNode (writeNode e)) "comment"
          = (if commentTruthy e.comment
             then some (JVal.arr [JVal.str (e.comment.getD "")]) else none) := by
  refine ⟨⟨_, rfl, rfl, rfl, rfl, rfl⟩, rfl, ?_⟩
  intro e
  rcases e with ⟨n, v, c⟩
  cases c with
  | none =>
    refine ⟨rfl, rfl, rfl⟩
  | some s =>
    by_cases hs : s = ""
    · subst hs
      refine ⟨rfl, rfl, rfl⟩
    · have hc : commentTruthy (some s) = true := by simp [commentTruthy, hs]
      refine ⟨?_, ?_, ?_⟩ <;>
        simp [writeNode, jvalOfDataNode, jGet, alGet, hc]

/-! ## Association-list lemmas for the webview state -/

theorem alGet_alSet_self {α : Type} (m : List (String × α)) (k : String) (v : α) :
    alGet (alSet m k v) k = some v := by
  induction m with
  | nil => simp [alSet, alGet]
  | cons p ps ih =>
    by_cases h : p.1 = k
    · simp [alSet, alGet, h]
    · simp [alSet, alGet, h, ih]

theorem alGet_alSet_ne {α : Type} (m : List (String × α)) {k k2 : String} (v : α)
    (h : k2 ≠ k) : alGet (alSet m k v) k2 = alGet m k2 := by
  have hk : ¬(k = k2) := fun hh => h hh.symm
  induction m with
  | nil => simp [alSet, alGet, hk]
  | cons p ps ih =>
    by_cases hp : p.1 = k
    · simp [alSet, alGet, hp, hk]
    · simp [alSet, alGet, hp, ih]

/-- C5 (confirmed): `updateValue(language, key, x)` leaves every other
language's table untouched, and in the target language's table it leaves
every other key's entry untouched and stores under `key` the previous
entry (or a fresh `{ name := key, value := "" }` one) with its value set
to `x`. -/
theorem updateValue_spec (d : DocState) (language key x : String) :
    (∀ lang2, lang2 ≠ language →
      alGet (updateValue d language key x) lang2 = alGet d lang2)
    ∧ ∃ t2, alGet (updateValue d language key x) language = some t2
      ∧ (∀ k2, k2 ≠ key → alGet t2 k2 = alGet ((alGet d language).getD []) k2)
      ∧ alGet t2 key
        = some { (alGet ((alGet d language).getD []) key).getD
                   { name := key, value := "", comment := none } with value := x } := by
  refine ⟨?_, ?_⟩
  · intro lang2 h
    unfold updateValue
    exact alGet_alSet_ne d _ h
  · unfold updateValue
    refine ⟨alSet ((alGet d language).getD []) key
      { ((alGet ((alGet d language).getD []) key).getD
          { name := key, value := "", comment := none }) with value := x }, ?_, ?_, ?_⟩
    · exact alGet_alSet_self d language _
    · intro k2 h
      exact alGet_alSet_ne _ _ h
    · exact alGet_alSet_self _ key _

theorem updateValue_spec_witness :
    alGet (updateValue
        [("default", [("Hello", { name := "Hello", value := "Hi", comment := none })])]
        "en-US" "Hello" "Hi") "default"
      = alGet [("default", [("Hello",
          ({ name := "Hello", value := "Hi", comment := none } : ResxEntry))])] "default" :=
  (updateValue_spec
    [("default", [("Hello", { name := "Hello", value := "Hi", comment := none })])]
    "en-US" "Hello" "Hi").1 "default" (by decide)

/-! ## Rename lemmas (C7) -/

theorem alGet_alDelete_self {α : Type} (m : List (String × α)) (k : String) :
    alGet (alDelete m k) k = none := by
  induction m with
  | nil => rfl
  | cons p ps ih =>
    by_cases hp : p.1 = k
    · simp [alDelete, hp, ih]
    · simp [alDelete, alGet, hp, ih]

theorem alGet_alDelete_ne {α : Type} (m : List (String × α)) {k k2 : String}
    (h : k2 ≠ k) : alGet (alDelete m k) k2 = alGet m k2 := by
  have h2 : ¬(k = k2) := fun hh => h hh.symm
  induction m with
  | nil => rfl
  | cons p ps ih =>
    by_cases hp : p.1 = k
    · simp [alDelete, alGet, hp, h2, ih]
    · simp [alDelete, alGet, hp, ih]

theorem alDelete_append {α : Type} (m m2 : List (String × α)) (k : String) :
    alDelete (m ++ m2) k = alDelete m k ++ alDelete m2 k := by
  induction m with
  | nil => rfl
  | cons p ps ih =>
    by_cases hp : p.1 = k <;> simp [alDelete, hp, ih]

theorem alDelete_of_none {α : Type} {m : List (String × α)} {k : String}
    (h : alGet m k = none) : alDelete m k = m := by
  induction m with
  | nil => rfl
  | cons p ps ih =>
    by_cases hp : p.1 = k
    · rw [alGet, if_pos hp] at h; exact absurd h (by simp)
    · rw [alGet, if_neg hp] at h
      simp [alDelete, hp, ih h]

theorem alSet_of_none {α : Type} {m : List (String × α)} {k : String} (v : α)
    (h : alGet m k = none) : alSet m k v = m ++ [(k, v)] := by
  induction m with
  | nil => rfl
  | cons p ps ih =>
    by_cases hp : p.1 = k
    · rw [alGet, if_pos hp] at h; exact absurd h (by simp)
    · rw [alGet, if_neg hp] at h
      simp [alSet, hp, ih h]

theorem alGet_append_right {α : Type} {m : List (String × α)} {k : String}
    (m2 : List (String × α)) (h : alGet m k = none) :
    alGet (m ++ m2) k = alGet m2 k := by
  induction m with
  | nil => rfl
  | cons p ps ih =>
    by_cases hp : p.1 = k
    · rw [alGet, if_pos hp] at h; exact absurd h (by simp)
    · rw [alGet, if_neg hp] at h
      simp [alGet, hp, ih h]

theorem alGet_append_left {α : Type} {m : List (String × α)} {k : String} {v : α}
    (m2 : List (String × α)) (h : alGet m k = some v) :
    alGet (m ++ m2) k = some v := by
  induction m with
  | nil => simp [alGet] at h
  | cons p ps ih =>
    by_cases hp : p.1 = k
    · rw [alGet, if_pos hp] at h
      simp [alGet, hp, h]
    · rw [alGet, if_neg hp] at h
      simp [alGet, hp, ih h]

theorem renameInTable_found {t : List (String × ResxEntry)} {oldK : String} {e : ResxEntry}
    (h : alGet t oldK = some e) (newK : String) :
    renameInTable t oldK newK = alDelete (alSet t newK { e with name := newK }) oldK := by
  unfold renameInTable
  rw [h]

theorem rename_rename (t : List (String × ResxEntry)) (a b : String) (e : ResxEntry)
    (ha : alGet t a = some e) (hname : e.name = a) (hb : alGet t b = none)
    (hab : a ≠ b) :
    ∀ k, alGet (renameInTable (renameInTable t a b) b a) k = alGet t k := by
  intro k
  have hba : b ≠ a := fun hh => hab hh.symm
  have h1 : renameInTable t a b = alDelete t a ++ [(b, { e with name := b })] := by
    rw [renameInTable_found ha b, alSet_of_none _ hb, alDelete_append]
    simp [alDelete, hba]
  have h2 : alGet (renameInTable t a b) b = some { e with name := b } := by
    rw [h1, alGet_append_right _ (by rw [alGet_alDelete_ne _ hba]; exact hb)]
    simp [alGet]
  have h3 : alGet (renameInTable t a b) a = none := by
    rw [h1, alGet_append_right _ (alGet_alDelete_self t a)]
    simp [alGet, hba]
  have he : ({ ({ e with name := b } : ResxEntry) with name := a } : ResxEntry) = e := by
    rcases e with ⟨n, v, c⟩
    have hn : n = a := hname
    subst hn
    rfl
  have h4 : renameInTable (renameInTable t a b) b a = alDelete t a ++ [(a, e)] := by
    rw [renameInTable_found h2 a, he, alSet_of_none _ h3, h1,
      alDelete_append, alDelete_append]
    rw [alDelete_of_none (show alGet (alDelete t a) b = none by
      rw [alGet_alDelete_ne _ hba]; exact hb)]
    simp [alDelete, hab, hba]
  rw [h4]
  by_cases hk : k = a
  · subst hk
    rw [alGet_append_right _ (alGet_alDelete_self t k)]
    simp [alGet, ha]
  · have hda : alGet (alDelete t a) k = alGet t k := alGet_alDelete_ne t hk
    have hka : ¬(a = k) := fun hh => hk hh.symm
    cases hg : alGet t k with
    | some v =>
      rw [alGet_append_left [(a, e)] (show alGet (alDelete t a) k = some v by rw [hda, hg])]
    | none =>
      rw [alGet_append_right [(a, e)] (show alGet (alDelete t a) k = none by rw [hda, hg])]
      simp [alGet, hka]

theorem alGet_map_rename (m : DocState) (o nk k : String) :
    alGet (m.map (fun p => (p.1, renameInTable p.2 o nk))) k
      = (alGet m k).map (fun t => renameInTable t o nk) := by
  induction m with
  | nil => rfl
  | cons p ps ih =>
    by_cases hp : p.1 = k <;> simp [alGet, hp, ih]

/-- C7 (amended): for a member table that contains `a` under a
consistent entry (`name = a`) and does not contain `b`, renaming
`a → b` and then `b → a` restores the table *pointwise*: every key maps
to its original entry.  (The ordered table is not restored in general:
the renamed entry is re-appended at the end, see the counterexample.) -/
theorem updateKey_roundtrip (d : DocState) (lang : String)
    (t : List (String × ResxEntry)) (a b : String) (e : ResxEntry)
    (hlang : alGet d lang = some t) (ha : alGet t a = some e) (hname : e.name = a)
    (hb : alGet t b = none) (hab : a ≠ b) (ha0 : a ≠ "") (hb0 : b ≠ "") :
    ∃ t2, alGet (updateKey (updateKey d a b) b a) lang = some t2
      ∧ ∀ k, alGet t2 k = alGet t k := by
  have hba : b ≠ a := fun hh => hab hh.symm
  have hstep1 : updateKey d a b = d.map (fun p => (p.1, renameInTable p.2 a b)) := by
    rw [updateKey, if_pos ⟨hab, hb0⟩]
  have hstep2 : updateKey (updateKey d a b) b a
      = (updateKey d a b).map (fun p => (p.1, renameInTable p.2 b a)) := by
    rw [updateKey, if_pos ⟨hba, ha0⟩]
  refine ⟨renameInTable (renameInTable t a b) b a, ?_,
    rename_rename t a b e ha hname hb hab⟩
  rw [hstep2, alGet_map_rename, hstep1, alGet_map_rename, hlang]
  rfl

theorem updateKey_roundtrip_witness :
    ∃ t2, alGet (updateKey (updateKey
        [("default", [("a", { name := "a", value := "va", comment := none }),
                      ("c", { name := "c", value := "vc", comment := none })])]
        "a" "b") "b" "a") "default" = some t2
      ∧ ∀ k, alGet t2 k
          = alGet [("a", ({ name := "a", value := "va", comment := none } : ResxEntry)),
                   ("c", { name := "c", value := "vc", comment := none })] k :=
  updateKey_roundtrip
    [("default", [("a", { name := "a", value := "va", comment := none }),
                  ("c", { name := "c", value := "vc", comment := none })])]
    "default"
    [("a", { name := "a", value := "va", comment := none }),
     ("c", { name := "c", value := "vc", comment := none })]
    "a" "b" { name := "a", value := "va", comment := none }
    (by decide) (by decide) rfl (by decide) (by decide) (by decide) (by decide)

/-- C7 (counterexample): `renameKey("a","b")` then `renameKey("b","a")`
does not restore the original *ordered* table when `a` was not the last
key — the entry for `a` is re-appended at the end of the table. -/
theorem updateKey_not_order_preserving :
    alGet (updateKey (updateKey
        [("default", [("a", { name := "a", value := "va", comment := none }),
                      ("c", { name := "c", value := "vc", comment := none })])]
        "a" "b") "b" "a") "default"
      ≠ some [("a", ({ name := "a", value := "va", comment := none } : ResxEntry)),
              ("c", { name := "c", value := "vc", comment := none })] := by
  decide

/-! ## Loading never overwrites the `default` slot (C10) -/

theorem tryGetCultureChars_valid {base file t : List Char}
    (h : tryGetCultureChars base file = some t) : validTagL t = true := by
  unfold tryGetCultureChars at h
  cases hs : stripCaseless (base ++ ['.']) file with
  | none => rw [hs] at h; cases h
  | some rest =>
    rw [hs] at h
    dsimp only at h
    split at h
    · rename_i hcond
      cases h
      exact hcond.1
    · cases h

theorem tryGetCulture_ne_default {baseFileName fileName s : String}
    (h : tryGetCultureFromResxFileName baseFileName fileName = some s) :
    s ≠ "default" := by
  unfold tryGetCultureFromResxFileName at h
  cases hc : tryGetCultureChars baseFileName.data fileName.data with
  | none => rw [hc] at h; cases h
  | some l =>
    rw [hc] at h
    have hl : String.mk l = s := by
      simpa using h
    have hv : validTagL l = true := tryGetCultureChars_valid hc
    intro hcontra
    have : l = "default".data := by
      have := congrArg String.data (hl.trans hcontra)
      simpa using this
    rw [this] at hv
    exact absurd hv (by decide)

theorem load_fold_default (n : String) (fs : List (String × List DataNode)) :
    ∀ acc : List (String × Table),
      alGet (fs.foldl
        (fun acc p =>
          match tryGetCultureFromResxFileName n p.1 with
          | some lang => alSet acc lang (parseResxData p.2)
          | none => acc) acc) "default" = alGet acc "default" := by
  induction fs with
  | nil => intro acc; rfl
  | cons f rest ih =>
    intro acc
    rw [List.foldl_cons]
    cases hc : tryGetCultureFromResxFileName n f.1 with
    | none => rw [ih]
    | some lang =>
      rw [ih]
      exact alGet_alSet_ne acc _ (fun hh => tryGetCulture_ne_default hc hh.symm)

/-- C10 (confirmed): a culture extracted from a sibling file name is
never the string `"default"` (the tag needs at least one dash-separated
segment), so `loadResxFiles` never overwrites the base file's table
stored under the reserved `"default"` identifier. -/
theorem loadResxFiles_default_preserved (baseContent : List DataNode)
    (baseFileName : String) (dirFiles : List (String × List DataNode)) :
    (∀ f s, tryGetCultureFromResxFileName baseFileName f = some s → s ≠ "default")
    ∧ alGet (loadResxFiles baseContent baseFileName dirFiles) "default"
        = some (parseResxData baseContent) := by
  refine ⟨fun _ _ h => tryGetCulture_ne_default h, ?_⟩
  unfold loadResxFiles
  rw [load_fold_default]
  rfl

theorem loadResxFiles_default_preserved_witness :
    ("en-US" : String) ≠ "default" :=
  (loadResxFiles_default_preserved [] "Messages" []).1
    "Messages.en-US.resx" "en-US" (by decide)

/-! ## Characterization of family discovery (C1) -/

theorem lowerChar_dot {c : Char} (h : lowerChar c = '.') : c = '.' := by
  unfold lowerChar at h
  by_cases h0 : c = 'A'
  · rw [if_pos h0] at h
    exact absurd h (by decide)
  · rw [if_neg h0] at h
    by_cases h1 : c = 'B'
    · rw [if_pos h1] at h
      exact absurd h (by decide)
    · rw [if_neg h1] at h
      by_cases h2 : c = 'C'
      · rw [if_pos h2] at h
        exact absurd h (by decide)
      · rw [if_neg h2] at h
        by_cases h3 : c = 'D'
        · rw [if_pos h3] at h
          exact absurd h (by decide)
        · rw [if_neg h3] at h
          by_cases h4 : c = 'E'
          · rw [if_pos h4] at h
            exact absurd h (by decide)
          · rw [if_neg h4] at h
            by_cases h5 : c = 'F'
            · rw [if_pos h5] at h
              exact absurd h (by decide)
            · rw [if_neg h5] at h
              by_cases h6 : c = 'G'
              · rw [if_pos h6] at h
                exact absurd h (by decide)
              · rw [if_neg h6] at h
                by_cases h7 : c = 'H'
                · rw [if_pos h7] at h
                  exact absurd h (by decide)
                · rw [if_neg h7] at h
                  by_cases h8 : c = 'I'
                  · rw [if_pos h8] at h
                    exact absurd h (by decide)
                  · rw [if_neg h8] at h
                    by_cases h9 : c = 'J'
                    · rw [if_pos h9] at h
                      exact absurd h (by decide)
                    · rw [if_neg h9] at h
                      by_cases h10 : c = 'K'
                      · rw [if_pos h10] at h
                        exact absurd h (by decide)
                      · rw [if_neg h10] at h
                        by_cases h11 : c = 'L'
                        · rw [if_pos h11] at h
                          exact absurd h (by decide)
                        · rw [if_neg h11] at h
                          by_cases h12 : c = 'M'
                          · rw [if_pos h12] at h
                            exact absurd h (by decide)
                          · rw [if_neg h12] at h
                            by_cases h13 : c = 'N'
                            · rw [if_pos h13] at h
                              exact absurd h (by decide)
                            · rw [if_neg h13] at h
                              by_cases h14 : c = 'O'
                              · rw [if_pos h14] at h
                                exact absurd h (by decide)
                              · rw [if_neg h14] at h
                                by_cases h15 : c = 'P'
                                · rw [if_pos h15] at h
                                  exact absurd h (by decide)
                                · rw [if_neg h15] at h
                                  by_cases h16 : c = 'Q'
                                  · rw [if_pos h16] at h
                                    exact absurd h (by decide)
                                  · rw [if_neg h16] at h
                                    by_cases h17 : c = 'R'
                                    · rw [if_pos h17] at h
                                      exact absurd h (by decide)
                                    · rw [if_neg h17] at h
                                      by_cases h18 : c = 'S'
                                      · rw [if_pos h18] at h
                                        exact absurd h (by decide)
                                      · rw [if_neg h18] at h
                                        by_cases h19 : c = 'T'
                                        · rw [if_pos h19] at h
                                          exact absurd h (by decide)
                                        · rw [if_neg h19] at h
                                          by_cases h20 : c = 'U'
                                          · rw [if_pos h20] at h
                                            exact absurd h (by decide)
                                          · rw [if_neg h20] at h
                                            by_cases h21 : c = 'V'
                                            · rw [if_pos h21] at h
                                              exact absurd h (by decide)
                                            · rw [if_neg h21] at h
                                              by_cases h22 : c = 'W'
                                              · rw [if_pos h22] at h
                                                exact absurd h (by decide)
                                              · rw [if_neg h22] at h
                                                by_cases h23 : c = 'X'
                                                · rw [if_pos h23] at h
                                                  exact absurd h (by decide)
                                                · rw [if_neg h23] at h
                                                  by_cases h24 : c = 'Y'
                                                  · rw [if_pos h24] at h
                                                    exact absurd h (by decide)
                                                  · rw [if_neg h24] at h
                                                    by_cases h25 : c = 'Z'
                                                    · rw [if_pos h25] at h
                                                      exact absurd h (by decide)
                                                    · rw [if_neg h25] at h
                                                      exact h

theorem stripCaseless_some :
    ∀ (p l r : List Char), stripCaseless p l = some r →
      ∃ q, l = q ++ r ∧ q.map lowerChar = p.map lowerChar := by
  intro p
  induction p with
  | nil =>
    intro l r h
    simp only [stripCaseless, Option.some.injEq] at h
    exact ⟨[], by rw [h]; rfl, rfl⟩
  | cons a ps ih =>
    intro l r h
    cases l with
    | nil => simp [stripCaseless] at h
    | cons c cs =>
      simp only [stripCaseless] at h
      split at h
      · rename_i hlc
        rcases ih cs r h with ⟨q, hq, hm⟩
        exact ⟨c :: q, by rw [hq]; rfl, by simp [hm, hlc]⟩
      · cases h

theorem stripCaseless_of_map_eq :
    ∀ (p q : List Char), q.map lowerChar = p.map lowerChar →
      ∀ r, stripCaseless p (q ++ r) = some r := by
  intro p
  induction p with
  | nil =>
    intro q hq r
    have hq2 : q = [] := by simpa using hq
    subst hq2
    rfl
  | cons a ps ih =>
    intro q hq r
    cases q with
    | nil => simp at hq
    | cons c cs =>
      simp only [List.map_cons, List.cons.injEq] at hq
      show stripCaseless (a :: ps) (c :: (cs ++ r)) = some r
      simp only [stripCaseless]
      rw [if_pos hq.1]
      exact ih cs hq.2 r

theorem takeWhile_append_all {p : Char → Bool} :
    ∀ {t : List Char}, t.all p = true →
      ∀ l, (t ++ l).takeWhile p = t ++ l.takeWhile p := by
  intro t
  induction t with
  | nil => intro _ l; rfl
  | cons c cs ih =>
    intro h l
    simp only [List.all_cons, Bool.and_eq_true] at h
    simp [List.takeWhile_cons, h.1, ih h.2]

theorem dropWhile_append_all {p : Char → Bool} :
    ∀ {t : List Char}, t.all p = true →
      ∀ l, (t ++ l).dropWhile p = l.dropWhile p := by
  intro t
  induction t with
  | nil => intro _ l; rfl
  | cons c cs ih =>
    intro h l
    simp only [List.all_cons, Bool.and_eq_true] at h
    simp [List.dropWhile_cons, h.1, ih h.2]

theorem splitOnDash_ne_nil : ∀ t : List Char, splitOnDash t ≠ [] := by
  intro t
  induction t with
  | nil => simp [splitOnDash]
  | cons c rest ih =>
    simp only [splitOnDash]
    split
    · simp
    · split <;> simp

theorem mem_splitOnDash : ∀ {c : Char} {t : List Char}, c ∈ t →
    c = '-' ∨ ∃ s ∈ splitOnDash t, c ∈ s := by
  intro c t
  induction t with
  | nil => intro h; cases h
  | cons a rest ih =>
    intro h
    rcases List.mem_cons.mp h with h1 | h1
    · subst h1
      by_cases hd : c = '-'
      · exact Or.inl hd
      · right
        cases hsp : splitOnDash rest with
        | nil => exact absurd hsp (splitOnDash_ne_nil rest)
        | cons s ss =>
          refine ⟨c :: s, ?_, List.mem_cons_self c s⟩
          simp [splitOnDash, hd, hsp]
    · rcases ih h1 with h2 | ⟨s, hs, hcs⟩
      · exact Or.inl h2
      · right
        by_cases hd : a = '-'
        · refine ⟨s, ?_, hcs⟩
          simp only [splitOnDash, if_pos hd]
          exact List.mem_cons_of_mem [] hs
        · cases hsp : splitOnDash rest with
          | nil => exact absurd hsp (splitOnDash_ne_nil rest)
          | cons s0 ss =>
            rw [hsp] at hs
            rcases List.mem_cons.mp hs with hss | hss
            · subst hss
              refine ⟨a :: s, ?_, List.mem_cons_of_mem a hcs⟩
              simp [splitOnDash, hd, hsp]
            · refine ⟨s, ?_, hcs⟩
              simp only [splitOnDash, if_neg hd, hsp]
              exact List.mem_cons_of_mem _ hss

theorem alpha_ne_dot {c : Char} (h : isAsciiAlpha c = true) : ¬(c = '.') := by
  intro hc
  subst hc
  exact absurd h (by decide)

theorem alnum_ne_dot {c : Char} (h : isAsciiAlnum c = true) : ¬(c = '.') := by
  intro hc
  subst hc
  exact absurd h (by decide)

theorem validTag_no_dot {t : List Char} (h : validTagL t = true) :
    ∀ c ∈ t, ¬(c = '.') := by
  intro c hc
  rcases mem_splitOnDash hc with h1 | ⟨s, hs, hcs⟩
  · subst h1; decide
  · unfold validTagL at h
    split at h
    · rename_i s0 s1 rest hsp
      rw [hsp] at hs
      simp only [Bool.and_eq_true] at h
      rcases List.mem_cons.mp hs with h2 | h2
      · subst h2
        have ha : s.all isAsciiAlpha = true := by
          have := h.1
          simp only [alphaSeg, Bool.and_eq_true] at this
          exact this.2
        exact alpha_ne_dot (List.all_eq_true.mp ha c hcs)
      · have h3 : alnumSeg s = true := List.all_eq_true.mp h.2 s h2
        have h4 : s.all isAsciiAlnum = true := by
          simp only [alnumSeg, Bool.and_eq_true] at h3
          exact h3.2
        exact alnum_ne_dot (List.all_eq_true.mp h4 c hcs)
    · cases h

/-- C1 (amended): `tryGetCultureFromResxFileName` accepts a sibling name
exactly when it splits as the base name (compared case-insensitively), a
dot, a culture tag, a dot, and `resx` (case-insensitively); the tag must
be an alphabetic 2–8 segment followed by *at least one* dash-separated
alphanumeric 2–8 segment, and it is returned with the filename's
original casing (it appears verbatim in the decomposition). -/
theorem tryGetCultureChars_spec (base file t : List Char) :
    tryGetCultureChars base file = some t ↔
      validTagL t = true ∧
      ∃ bpart spart, file = bpart ++ ('.' :: (t ++ '.' :: spart))
        ∧ bpart.map lowerChar = base.map lowerChar
        ∧ spart.map lowerChar = ['r', 'e', 's', 'x'] := by
  constructor
  · intro h
    unfold tryGetCultureChars at h
    cases hs : stripCaseless (base ++ ['.']) file with
    | none => rw [hs] at h; cases h
    | some rest =>
      rw [hs] at h
      dsimp only at h
      split at h
      case isTrue hcond =>
        rw [Option.some.injEq] at h
        obtain ⟨hval, hmap⟩ := hcond
        rw [h] at hval
        rcases stripCaseless_some _ _ _ hs with ⟨q, hq, hm⟩
        rw [List.map_append] at hm
        rw [show List.map lowerChar ['.'] = ['.'] from by decide] at hm
        rcases List.map_eq_append_iff.mp hm with ⟨q1, q2, hq12, hm1, hm2⟩
        cases q2 with
        | nil => simp at hm2
        | cons c0 q2t =>
          simp only [List.map_cons, List.cons.injEq] at hm2
          obtain ⟨hc0, hq2t⟩ := hm2
          have hq2t2 : q2t = [] := by simpa using hq2t
          subst hq2t2
          have hc0d : c0 = '.' := lowerChar_dot hc0
          subst hc0d
          cases hrem : rest.dropWhile (fun c => c ≠ '.') with
          | nil => rw [hrem] at hmap; simp at hmap
          | cons c1 suf =>
            rw [hrem] at hmap
            simp only [List.map_cons, List.cons.injEq] at hmap
            obtain ⟨hc1, hsuf⟩ := hmap
            have hc1d : c1 = '.' := lowerChar_dot hc1
            subst hc1d
            refine ⟨hval, q1, suf, ?_, hm1, hsuf⟩
            have hrest : rest = t ++ '.' :: suf := by
              rw [← h, ← hrem]
              exact (List.takeWhile_append_dropWhile _ _).symm
            rw [hq, hq12, hrest]
            simp
      case isFalse => exact Option.noConfusion h
  · rintro ⟨hval, bpart, spart, hfile, hbm, hsm⟩
    unfold tryGetCultureChars
    have hstrip : stripCaseless (base ++ ['.']) file = some (t ++ '.' :: spart) := by
      rw [hfile,
        show bpart ++ ('.' :: (t ++ '.' :: spart)) = (bpart ++ ['.']) ++ (t ++ '.' :: spart)
          from by simp]
      exact stripCaseless_of_map_eq _ _ (by simp [List.map_append, hbm]) _
    rw [hstrip]
    dsimp only
    have hallt : t.all (fun c => c ≠ '.') = true :=
      List.all_eq_true.mpr (fun c hc => by simpa using validTag_no_dot hval c hc)
    have htake : (t ++ '.' :: spart).takeWhile (fun c => c ≠ '.') = t := by
      rw [takeWhile_append_all hallt]
      show t ++ ([] : List Char) = t
      exact List.append_nil t
    have hdrop : (t ++ '.' :: spart).dropWhile (fun c => c ≠ '.') = '.' :: spart := by
      rw [dropWhile_append_all hallt]
      rfl
    have hmapc : ('.' :: spart).map lowerChar = ['.', 'r', 'e', 's', 'x'] := by
      rw [List.map_cons, hsm, show lowerChar '.' = '.' from by decide]
    rw [htake, hdrop, if_pos ⟨hval, hmapc⟩]

/-- C1 (counterexample): a sibling whose culture tag has no
dash-separated segment, such as `Messages.zh.resx`, is *not* accepted as
a family member — the regex requires at least one `-<segment>` part. -/
theorem tryGetCulture_no_dashless_tag :
    tryGetCultureFromResxFileName "Messages" "Messages.zh.resx" = none := by
  decide

theorem tryGetCultureChars_spec_witness :
    tryGetCultureChars "Messages".data "Messages.en-US.resx".data = some "en-US".data :=
  (tryGetCultureChars_spec "Messages".data "Messages.en-US.resx".data "en-US".data).mpr
    ⟨by decide, "Messages".data, "resx".data, by decide, by decide, by decide⟩

theorem addDelete_keyset_witness :
    ((deleteRowFile "Bye" (addKeyToFile "Bye"
        ([{ name := "Hello", value := some "Hi", comment := none }] : List DataNode)).1).1).map
        DataNode.name
      = (([{ name := "Hello", value := some "Hi", comment := none }] :
          List DataNode).map DataNode.name).filter (fun n => n != "Bye") :=
  addDelete_keyset [{ name := "Hello", value := some "Hi", comment := none }] "Bye"

theorem writeResxFile_fixed_parts_witness :
    writeResxData [{ name := "Hello", value := "Hi", comment := none }]
      = List.map writeNode [{ name := "Hello", value := "Hi", comment := none }] :=
  (writeResxFile_fixed_parts [{ name := "Hello", value := "Hi", comment := none }]).2.1
